import Mathlib

/-!
Verification of the LLM-Chatbot repository (src/chatbot/chatbot_db.py).

The file embeds the program's own logic shallowly in Lean:

* the response post-processing pipeline of `generate_response`
  (lines 108-133) as a pure function `Chatbot.sanitize` on strings,
  with each regex operation translated into an explicit, executable
  character scan (Python `re` semantics: `.` does not match a newline,
  `re.sub` rewrites every non-overlapping leftmost match, `\b` is a
  word/non-word boundary; `\w` is modelled over the ASCII range,
  which covers the fixed ASCII marker literals of the source);
* the per-session history management of `websocket_endpoint`
  (lines 136-179): the initial System entry, the User append with its
  trim, the Assistant append, the context assembly, and the turn body
  with its fallible audit-log write, as a reachability relation
  `Chatbot.Reach` and a turn function `Chatbot.runTurn`;
* the generation lock (line 78, `asyncio.Lock`, held around the
  generation call at lines 159-160) as a small-step interleaving
  system `Chatbot.GenStep` over per-session program counters.
-/

namespace Chatbot

/-! ## Character classes (Python `re` over the ASCII range) -/

/-- `\w` of Python `re`, modelled over the ASCII range: letters, digits
and underscore.  All marker literals of the source are ASCII. -/
def wordChar (c : Char) : Bool := c.isAlphanum || c = '_'

/-- The whitespace characters removed by Python `str.strip()`. -/
def isPySpace (c : Char) : Bool :=
  c = ' ' || c = '\t' || c = '\n' || c = '\r' || c = '\x0b' || c = '\x0c'

/-- Remove leading Python whitespace. -/
def stripLeft (l : List Char) : List Char := l.dropWhile isPySpace

/-- Remove trailing Python whitespace. -/
def stripRight (l : List Char) : List Char :=
  (l.reverse.dropWhile isPySpace).reverse

/-- Python `str.strip()`. -/
def pyStrip (l : List Char) : List Char := stripRight (stripLeft l)

/-! ## Step 1: `decoded.split("Assistant:")[-1]` (line 108)

`str.split(pat)[-1]` is the suffix after the last occurrence of `pat`
(the pattern `"Assistant:"` has no nonempty border, so greedy
non-overlapping splitting finds every occurrence), or the whole string
when `pat` does not occur. -/

def assistantLit : List Char := "Assistant:".data

/-- Scan left to right remembering the suffix after the most recent
occurrence of `"Assistant:"`. -/
def afterLastGo (acc : Option (List Char)) : List Char → Option (List Char)
  | [] => acc
  | c :: cs =>
    afterLastGo
      (if assistantLit.isPrefixOf (c :: cs) then some ((c :: cs).drop assistantLit.length)
       else acc) cs

/-- Suffix after the last `"Assistant:"` marker, else the whole text. -/
def afterLast (l : List Char) : List Char := (afterLastGo none l).getD l

/-! ## Step 2: `re.sub(r"<.*?>", "", response)` (line 111)

Non-greedy `<.*?>` matches from a `<` to the *first* later `>` with no
newline in between (`.` does not match `\n`); the characters in between
may include further `<`.  When a `<` has no `>` before the end of its
line, no match can start at that `<` nor at any later `<` of the same
line (any `>` following such a later `<` would also follow the first),
so all those characters are kept literally.  The scan below buffers the
characters of a candidate tag and either discards them at `>` or emits
them unchanged at `\n` / end of input. -/

def removeTagsGo : Option (List Char) → List Char → List Char
  | none, [] => []
  | some buf, [] => buf.reverse
  | none, c :: cs =>
    if c = '<' then removeTagsGo (some ['<']) cs else c :: removeTagsGo none cs
  | some buf, c :: cs =>
    if c = '>' then removeTagsGo none cs
    else if c = '\n' then buf.reverse ++ '\n' :: removeTagsGo none cs
    else removeTagsGo (some (c :: buf)) cs

def removeTags (l : List Char) : List Char := removeTagsGo none l

/-! ## Step 3: `re.split(r"\b(User:|Assistant:)\b", response)[0]` (line 114)

`[0]` of `re.split` is the text before the first match.  The leading
`\b` requires the preceding character (if any) to be a non-word
character; the trailing `\b` sits after `':'`, a non-word character, so
it holds exactly when the *next* character exists and is a word
character. -/

/-- Literal match of `m` at the head of `l`, followed by the trailing
word boundary after `':'`: the next character must be a word character. -/
def litBound : List Char → List Char → Bool
  | [], [] => false
  | [], c :: _ => wordChar c
  | _ :: _, [] => false
  | a :: ms, c :: cs => a == c && litBound ms cs

def userLit : List Char := "User:".data

def roleHere (l : List Char) : Bool := litBound userLit l || litBound assistantLit l

/-- Keep characters until the first word-bounded `User:`/`Assistant:`
marker; drop the marker and everything after it.  `prev` records
whether the previous character was a word character (for the leading
`\b`). -/
def truncRole (prev : Bool) : List Char → List Char
  | [] => []
  | c :: cs =>
    if !prev && roleHere (c :: cs) then [] else c :: truncRole (wordChar c) cs

/-! ## Step 4: the thinking-out-loud `re.sub` (lines 117-121)

Pattern `(?i)\b(Hmm|Wait|...|Anyway)\b.*` with empty replacement.
Case-insensitive alternation of fixed literals; the leading `\b` needs
a non-word previous character (every literal starts with a letter); the
trailing `\b` after the literal (every literal ends with a letter)
needs a non-word next character or the end; `.*` then consumes the rest
of the *line* (no DOTALL), and `re.sub` keeps scanning after it, so
every line is cut at its leftmost word-bounded marker while later lines
are processed independently. -/

/-- The marker literals, lowercased (matching is case-insensitive). -/
def markerLits : List (List Char) :=
  ["hmm", "wait", "let me think", "i think", "maybe", "possibly",
   "alternatively", "should i", "now i need to", "so", "alright",
   "anyway"].map String.data

/-- Case-insensitive literal match at the head of `l`, followed by the
trailing word boundary (next character non-word, or end of input). -/
def matchesLit : List Char → List Char → Bool
  | [], [] => true
  | [], c :: _ => !wordChar c
  | _ :: _, [] => false
  | a :: ms, c :: cs => a == c.toLower && matchesLit ms cs

/-- Some discourse marker matches at the head of `l` (with its trailing
word boundary). -/
def markerHere (l : List Char) : Bool := markerLits.any (fun m => matchesLit m l)

/-- The `re.sub` scan.  First argument: are we inside a match, skipping
the `.*` region up to the next newline?  Second: was the previous
character a word character (leading `\b`)? -/
def scanThink : Bool → Bool → List Char → List Char
  | _, _, [] => []
  | true, _, c :: cs =>
    if c = '\n' then '\n' :: scanThink false false cs else scanThink true false cs
  | false, prev, c :: cs =>
    if !prev && markerHere (c :: cs) then scanThink true false cs
    else c :: scanThink false (wordChar c) cs

/-! ## Steps 5-7: sentence split, cap at three, punctuation, newline
collapse (lines 125-132) -/

def isPunctO : Option Char → Bool
  | some c => c = '.' || c = '!' || c = '?'
  | none => false

/-- Prepend a character to the first (current) piece. -/
def consCur (c : Char) : List (List Char) → List (List Char)
  | [] => [[c]]
  | p :: ps => (c :: p) :: ps

/-- `re.split(r'(?<=[.!?]) +', response)`: split at each maximal run of
spaces directly preceded by `.`, `!` or `?`.  First argument: are we
consuming the space run of a delimiter?  Second: the previous
character. -/
def sentGo : Bool → Option Char → List Char → List (List Char)
  | _, _, [] => [[]]
  | true, prev, c :: cs =>
    if c = ' ' then sentGo true prev cs else consCur c (sentGo false (some c) cs)
  | false, prev, c :: cs =>
    if isPunctO prev && c = ' ' then [] :: sentGo true (some ' ') cs
    else consCur c (sentGo false (some c) cs)

/-- `response.endswith(('.', '!', '?'))`. -/
def endsPunct (l : List Char) : Bool :=
  (l.getLast?.map (fun c => c = '.' || c = '!' || c = '?')).getD false

/-- `response.replace('\n', ' ')`, one character. -/
def nlToSpace (c : Char) : Char := if c = '\n' then ' ' else c

/-! ## The full pipeline of lines 108-133 -/

/-- Line 108: `decoded.split("Assistant:")[-1].strip()`. -/
def stage1 (d : List Char) : List Char := pyStrip (afterLast d)

/-- Line 111: tag removal. -/
def stage2 (d : List Char) : List Char := removeTags (stage1 d)

/-- Line 114: truncation at a hallucinated `User:`/`Assistant:` marker,
then `.strip()`. -/
def stage3 (d : List Char) : List Char := pyStrip (truncRole false (stage2 d))

/-- Lines 117-121: thinking-out-loud removal, then `.strip()`. -/
def stage4 (d : List Char) : List Char := pyStrip (scanThink false false (stage3 d))

/-- Lines 125-126: keep at most three sentences, rejoin with single
spaces, `.strip()`. -/
def stage6 (d : List Char) : List Char :=
  pyStrip (List.intercalate [' '] ((sentGo false none (stage4 d)).take 3))

/-- Lines 128-132: append a period when no terminal punctuation, then
collapse newlines to spaces and `.strip()`. -/
def sanitizeChars (d : List Char) : List Char :=
  pyStrip ((if endsPunct (stage6 d) then stage6 d else stage6 d ++ ['.']).map nlToSpace)

/-- The post-processing pipeline of `generate_response` (lines 108-133)
as a pure function from the decoded model output to the reply. -/
def sanitize (s : String) : String := String.mk (sanitizeChars s.data)

/-! ## Session store and connection handler (lines 136-179)

A session's history is the list of strings `chat_histories[session_id]`.
The handler creates it as `["System: " + system_prompt]` (line 146),
appends `"User: " + user_input` and trims (lines 153-155), assembles the
context (line 157), and appends `"Assistant: " + response` (line 162). -/

def MAX_HISTORY : Nat := 3

/-- The fixed instruction preamble (lines 142-145). -/
def systemPrompt : String :=
  "You are a helpful AI assistant. Answer the user\x27s question concisely and accurately. Do not explain your reasoning or thought process. Just provide the answer in 1-3 complete sentences\n\n"

/-- Line 146: `f"System: {system_prompt}"`. -/
def systemEntry : String := "System: " ++ systemPrompt

/-- Line 153: `f"User: {user_input}"`. -/
def mkUser (u : String) : String := "User: " ++ u

/-- Line 162: `f"Assistant: {response}"`. -/
def mkAssistant (r : String) : String := "Assistant: " ++ r

/-- Lines 154-155: when the history exceeds `MAX_HISTORY * 2 + 1`
entries it becomes `[history[0]] + history[-MAX_HISTORY * 2:]`
(`take 1` is Python's `[history[0]]` on the never-empty history). -/
def trimHist (h : List String) : List String :=
  if MAX_HISTORY * 2 + 1 < h.length then
    h.take 1 ++ h.drop (h.length - MAX_HISTORY * 2)
  else h

/-- Line 157: `"\n".join(chat_histories[session_id]) + "\nAssistant:"`. -/
def assembleContext (h : List String) : String :=
  String.intercalate "\n" h ++ "\nAssistant:"

/-- The reachable session states.  `Reach true h`: `h` is the history at
a turn boundary (just connected, or an Assistant entry just appended).
`Reach false h`: `h` is the history after the User append and trim of
lines 153-155, i.e. at the moment the context is assembled.  The
Assistant step allows an arbitrary response string, which covers every
possible generation output. -/
inductive Reach : Bool → List String → Prop
  | init : Reach true [systemEntry]
  | user (u : String) (h : List String) :
      Reach true h → Reach false (trimHist (h ++ [mkUser u]))
  | asst (r : String) (h : List String) :
      Reach false h → Reach true (h ++ [mkAssistant r])

/-- Observable outcome of one iteration of the receive loop. -/
structure TurnResult where
  /-- `chat_histories[session_id]` after the turn; `none` when the
  handler's `except` clause popped the session. -/
  hist : Option (List String)
  /-- Text frames sent to the client during the turn, in order. -/
  sent : List String
  /-- Whether the handler actively closed the websocket. -/
  closed : Bool

/-- One iteration of the `while True` loop (lines 149-167) together
with the `except Exception` clause (lines 175-179).  `gen` maps the
assembled context to the decoded model output (the external generation
capability, lines 95-105); `logOk` is whether the `log_chat` insert of
line 163 succeeds.  When it fails, the raised exception skips the sends
of lines 166-167 and reaches the handler's `except Exception` clause,
which closes the websocket and pops the session. -/
def runTurn (gen : String → String) (logOk : Bool) (h : List String)
    (u : String) : TurnResult :=
  let h1 := trimHist (h ++ [mkUser u])
  let resp := sanitize (gen (assembleContext h1))
  let h2 := h1 ++ [mkAssistant resp]
  if logOk then { hist := some h2, sent := [resp, "[END]"], closed := false }
  else { hist := none, sent := [], closed := true }

/-! Spec-side rendering (for claim C7): the spec describes the context
as the turns formatted as `"<Role>: <text>"` lines, newline-joined,
with a trailing `"Assistant:"` line. -/

inductive Role
  | system
  | user
  | assistant
deriving DecidableEq

def roleName : Role → String
  | .system => "System"
  | .user => "User"
  | .assistant => "Assistant"

/-- Modelled from the spec: one turn formatted as `"<Role>: <text>"`. -/
def specEntry (t : Role × String) : String := roleName t.1 ++ ": " ++ t.2

/-- Modelled from the spec: `render` concatenates all turns as
`"<Role>: <text>"` lines, newline-joined, with a trailing
`"Assistant:"` line appended. -/
def renderSpec (ts : List (Role × String)) : String :=
  String.intercalate "\n" (ts.map specEntry) ++ "\nAssistant:"

/-! A concrete four-turn session, used to exhibit reachable history
sizes. -/

def demo0 : List String := [systemEntry]
def demo1 : List String := trimHist (demo0 ++ [mkUser "a"])
def demo2 : List String := demo1 ++ [mkAssistant "b"]
def demo3 : List String := trimHist (demo2 ++ [mkUser "c"])
def demo4 : List String := demo3 ++ [mkAssistant "d"]
def demo5 : List String := trimHist (demo4 ++ [mkUser "e"])
def demo6 : List String := demo5 ++ [mkAssistant "f"]
def demo7 : List String := trimHist (demo6 ++ [mkUser "g"])
def demo8 : List String := demo7 ++ [mkAssistant "h"]

/-! ## The generation gate (line 78 and lines 159-160)

`model_lock = asyncio.Lock()` (`torch` has no `Lock` attribute), and
every generation runs inside `async with model_lock:`.  The interleaved
execution of N connection handlers, each serving one message, is
modelled as a small-step transition system: a handler receives its
message, then acquires the lock only when no one holds it (the
`asyncio.Lock` contract), generates while holding it, and releases it
when the generation call resolves.  `calls` counts the generation calls
each handler has started. -/

inductive GenPC
  | start
  | waiting
  | generating
  | finished
deriving DecidableEq

structure GenSys (n : Nat) where
  pc : Fin n → GenPC
  lockHeld : Option (Fin n)
  calls : Fin n → Nat

/-- One scheduler step of the N-handler system. -/
inductive GenStep (n : Nat) : GenSys n → GenSys n → Prop
  | recv (s : GenSys n) (i : Fin n) :
      s.pc i = .start →
      GenStep n s { s with pc := Function.update s.pc i .waiting }
  | acquire (s : GenSys n) (i : Fin n) :
      s.pc i = .waiting → s.lockHeld = none →
      GenStep n s
        { pc := Function.update s.pc i .generating, lockHeld := some i,
          calls := Function.update s.calls i (s.calls i + 1) }
  | release (s : GenSys n) (i : Fin n) :
      s.pc i = .generating → s.lockHeld = some i →
      GenStep n s
        { pc := Function.update s.pc i .finished, lockHeld := none,
          calls := s.calls }

def genInit (n : Nat) : GenSys n :=
  { pc := fun _ => .start, lockHeld := none, calls := fun _ => 0 }

/-- States reachable by interleaving the N handlers. -/
def GenReach (n : Nat) (s : GenSys n) : Prop :=
  Relation.ReflTransGen (GenStep n) (genInit n) s

/-- Generation calls a handler has started, as a function of where it
is in its turn. -/
def genCallCount : GenPC → Nat
  | .start => 0
  | .waiting => 0
  | .generating => 1
  | .finished => 1

def GenInv {n : Nat} (s : GenSys n) : Prop :=
  (∀ i, s.pc i = .generating → s.lockHeld = some i) ∧
  (∀ i, s.calls i = genCallCount (s.pc i))

/-- Join a list of lines with newlines. -/
def joinNl : List (List Char) → List Char
  | [] => []
  | [l] => l
  | l :: ls => l ++ '\n' :: joinNl ls

/-- Modelled from the amended claim C4: within one line, keep the text
before the leftmost word-bounded discourse marker and delete the marker
and everything after it; a line without a marker is kept whole.  `prev`
records whether the previous character was a word character. -/
def cutLine (prev : Bool) : List Char → List Char
  | [] => []
  | c :: cs =>
    if !prev && markerHere (c :: cs) then [] else c :: cutLine (wordChar c) cs

/-! ## Helper lemmas: session invariants -/

theorem reach_demo6 : Reach true demo6 :=
  Reach.asst "f" demo5 (Reach.user "e" demo4 (Reach.asst "d" demo3
    (Reach.user "c" demo2 (Reach.asst "b" demo1
      (Reach.user "a" demo0 Reach.init)))))

theorem reach_demo7 : Reach false demo7 := Reach.user "g" demo6 reach_demo6

theorem reach_demo8 : Reach true demo8 := Reach.asst "h" demo7 reach_demo7

/-- Every reachable history is the System entry followed by a (possibly
trimmed) tail of User and Assistant entries. -/
theorem reach_shape : ∀ (b : Bool) (h : List String), Reach b h →
    ∃ t, h = systemEntry :: t ∧
      ∀ e ∈ t, (∃ u, e = mkUser u) ∨ (∃ r, e = mkAssistant r) := by
  intro b h hr
  induction hr with
  | init => exact ⟨[], rfl, by simp⟩
  | user u h hr ih =>
    obtain ⟨t, rfl, ht⟩ := ih
    have ht' : ∀ e ∈ t ++ [mkUser u],
        (∃ u2, e = mkUser u2) ∨ (∃ r, e = mkAssistant r) := by
      intro e he
      rcases List.mem_append.mp he with h1 | h2
      · exact ht e h1
      · rw [List.mem_singleton.mp h2]
        exact Or.inl ⟨u, rfl⟩
    rw [List.cons_append]
    unfold trimHist
    split
    next hlen =>
      refine ⟨(systemEntry :: (t ++ [mkUser u])).drop
        ((systemEntry :: (t ++ [mkUser u])).length - MAX_HISTORY * 2), rfl, ?_⟩
      intro e he
      apply ht'
      have hk : ∃ m, (systemEntry :: (t ++ [mkUser u])).length - MAX_HISTORY * 2
          = m + 1 := by
        simp only [List.length_cons, List.length_append, List.length_nil,
          MAX_HISTORY] at hlen ⊢
        exact ⟨t.length + 2 - 7, by omega⟩
      obtain ⟨m, hm⟩ := hk
      rw [hm, List.drop_succ_cons] at he
      exact List.drop_subset m (t ++ [mkUser u]) he
    next hlen => exact ⟨t ++ [mkUser u], rfl, ht'⟩
  | asst r h hr ih =>
    obtain ⟨t, rfl, ht⟩ := ih
    refine ⟨t ++ [mkAssistant r], by rw [List.cons_append], ?_⟩
    intro e he
    rcases List.mem_append.mp he with h1 | h2
    · exact ht e h1
    · rw [List.mem_singleton.mp h2]
      exact Or.inr ⟨r, rfl⟩

/-- The length invariant: at a turn boundary a history holds at most
`2 + 2*MAX_HISTORY` entries; at context-assembly time (after the User
append and trim) at most `1 + 2*MAX_HISTORY`. -/
theorem reach_len : ∀ (b : Bool) (h : List String), Reach b h →
    h.length ≤ cond b (MAX_HISTORY * 2 + 2) (MAX_HISTORY * 2 + 1) := by
  intro b h hr
  induction hr with
  | init => simp [MAX_HISTORY]
  | user u h hr ih =>
    simp only [Bool.cond_true] at ih
    simp only [Bool.cond_false]
    unfold trimHist
    split
    next hlen =>
      simp only [List.length_append, List.length_take, List.length_drop,
        List.length_cons, List.length_nil, MAX_HISTORY] at hlen ⊢
      omega
    next hlen =>
      simp only [not_lt] at hlen
      exact hlen
  | asst r h hr ih =>
    simp only [Bool.cond_false] at ih
    simp only [Bool.cond_true, List.length_append, List.length_cons,
      List.length_nil]
    omega

/-! ## Helper lemmas: the generation gate -/

theorem genInv_init (n : Nat) : GenInv (genInit n) := by
  constructor
  · intro i hgen
    simp [genInit] at hgen
  · intro i
    simp [genInit, genCallCount]

theorem genInv_step {n : Nat} {s s2 : GenSys n} (hs : GenStep n s s2)
    (hi : GenInv s) : GenInv s2 := by
  obtain ⟨h1, h2⟩ := hi
  cases hs with
  | recv i hpc =>
    refine ⟨?_, ?_⟩ <;> intro j
    · intro hj
      simp only at hj ⊢
      by_cases hij : j = i
      · subst hij
        rw [Function.update_same] at hj
        exact absurd hj (by decide)
      · rw [Function.update_noteq hij] at hj
        exact h1 j hj
    · simp only
      by_cases hij : j = i
      · subst hij
        rw [Function.update_same, h2 j, hpc]
        rfl
      · rw [Function.update_noteq hij]
        exact h2 j
  | acquire i hpc hlock =>
    refine ⟨?_, ?_⟩ <;> intro j
    · intro hj
      simp only at hj ⊢
      by_cases hij : j = i
      · subst hij; rfl
      · rw [Function.update_noteq hij] at hj
        rw [h1 j hj] at hlock
        exact absurd hlock (by simp)
    · simp only
      by_cases hij : j = i
      · subst hij
        rw [Function.update_same, Function.update_same, h2 j, hpc]
        rfl
      · rw [Function.update_noteq hij, Function.update_noteq hij]
        exact h2 j
  | release i hpc hlock =>
    refine ⟨?_, ?_⟩ <;> intro j
    · intro hj
      simp only at hj ⊢
      by_cases hij : j = i
      · subst hij
        rw [Function.update_same] at hj
        exact absurd hj (by decide)
      · rw [Function.update_noteq hij] at hj
        have := h1 j hj
        rw [hlock] at this
        exact absurd (Option.some.inj this) (Ne.symm hij)
    · simp only
      by_cases hij : j = i
      · subst hij
        rw [Function.update_same, h2 j, hpc]
        rfl
      · rw [Function.update_noteq hij]
        exact h2 j

theorem genReach_inv {n : Nat} {s : GenSys n} (h : GenReach n s) : GenInv s := by
  induction h with
  | refl => exact genInv_init n
  | tail _ hstep ih => exact genInv_step hstep ih

/-- The gate model is not vacuous: a complete two-session run (both
handlers receive, then generate one after the other) reaches a state
where both sessions have finished and two generation calls occurred. -/
theorem genRun_two : ∃ s : GenSys 2, GenReach 2 s ∧
    (∀ i, s.pc i = GenPC.finished) ∧ (List.ofFn s.calls).sum = 2 := by
  refine ⟨_, Relation.ReflTransGen.tail (Relation.ReflTransGen.tail
    (Relation.ReflTransGen.tail (Relation.ReflTransGen.tail
      (Relation.ReflTransGen.tail
        (Relation.ReflTransGen.single (GenStep.recv (genInit 2) 0 rfl))
        (GenStep.recv _ 1 (by decide)))
      (GenStep.acquire _ 0 (by decide) (by decide)))
    (GenStep.release _ 0 (by decide) (by decide)))
    (GenStep.acquire _ 1 (by decide) (by decide)))
    (GenStep.release _ 1 (by decide) (by decide)), ?_, ?_⟩
  · decide
  · decide

/-! ## Helper lemmas: context rendering -/

theorem specEntry_user (u : String) : specEntry (Role.user, u) = mkUser u := rfl

theorem specEntry_asst (r : String) :
    specEntry (Role.assistant, r) = mkAssistant r := rfl

theorem specEntry_system : specEntry (Role.system, systemPrompt) = systemEntry := rfl

theorem trimHist_map (l : List (Role × String)) :
    trimHist (l.map specEntry) =
      (if MAX_HISTORY * 2 + 1 < l.length then
        l.take 1 ++ l.drop (l.length - MAX_HISTORY * 2)
      else l).map specEntry := by
  unfold trimHist
  simp only [List.length_map]
  split
  · rw [List.map_append, List.map_take, List.map_drop]
  · rfl

/-! ## Helper lemmas: the thinking-out-loud sub acts line by line -/

theorem markerLits_ne_nil : ∀ m ∈ markerLits, m ≠ [] := by decide

theorem markerLits_noNl : ∀ m ∈ markerLits, '\n' ∉ m := by decide

theorem anyCongr {α : Type} {l : List α} {f g : α → Bool}
    (h : ∀ x ∈ l, f x = g x) : l.any f = l.any g := by
  induction l with
  | nil => rfl
  | cons a l ih =>
    simp only [List.any_cons, h a (List.mem_cons_self a l),
      ih fun x hx => h x (List.mem_cons_of_mem a hx)]

theorem matchesLit_nl (m t : List Char) (hm : m ≠ []) (hnl : '\n' ∉ m) :
    matchesLit m ('\n' :: t) = false := by
  cases m with
  | nil => exact absurd rfl hm
  | cons a ms =>
    have ha : a ≠ '\n' := fun h => hnl (by simp [h])
    show (a == '\n'.toLower && matchesLit ms t) = false
    rw [show '\n'.toLower = '\n' from rfl, beq_eq_false_iff_ne.mpr ha,
      Bool.false_and]

theorem markerHere_nl (t : List Char) : markerHere ('\n' :: t) = false := by
  unfold markerHere
  rw [List.any_eq_false]
  intro m hm
  rw [matchesLit_nl m t (markerLits_ne_nil m hm) (markerLits_noNl m hm)]
  exact Bool.false_ne_true

/-- A marker literal (newline-free) matches at the start of
`u ++ '\n' :: t` exactly when it matches at the start of the line `u`:
the literal cannot cross the newline, and the trailing boundary is
satisfied both at end of line and before `'\n'`. -/
theorem matchesLit_line : ∀ (m u t : List Char), '\n' ∉ m → '\n' ∉ u →
    matchesLit m (u ++ '\n' :: t) = matchesLit m u := by
  intro m
  induction m with
  | nil =>
    intro u t _ _
    cases u with
    | nil => rfl
    | cons c cs => rfl
  | cons a ms ih =>
    intro u t hm hu
    cases u with
    | nil =>
      rw [List.nil_append,
        matchesLit_nl (a :: ms) t (by simp) hm]
      rfl
    | cons c cs =>
      show (a == c.toLower && matchesLit ms (cs ++ '\n' :: t))
          = (a == c.toLower && matchesLit ms cs)
      rw [ih cs t (fun h => hm (List.mem_cons_of_mem a h))
        (fun h => hu (List.mem_cons_of_mem c h))]

theorem markerHere_line (u t : List Char) (hu : '\n' ∉ u) :
    markerHere (u ++ '\n' :: t) = markerHere u := by
  unfold markerHere
  exact anyCongr fun m hm => matchesLit_line m u t (markerLits_noNl m hm) hu

/-- In skip mode on a newline-free tail, everything is consumed. -/
theorem scanThink_skip : ∀ (p : Bool) (cs : List Char), '\n' ∉ cs →
    scanThink true p cs = [] := by
  intro p cs
  induction cs generalizing p with
  | nil => intro _; rfl
  | cons c cs ih =>
    intro hcs
    have hc : ¬(c = '\n') := fun h => hcs (by simp [h])
    show (if c = '\n' then '\n' :: scanThink false false cs
      else scanThink true false cs) = []
    rw [if_neg hc]
    exact ih false fun h => hcs (List.mem_cons_of_mem c h)

/-- Skip mode stops at the newline and resumes normal scanning. -/
theorem scanThink_skip_append : ∀ (p : Bool) (cs t : List Char), '\n' ∉ cs →
    scanThink true p (cs ++ '\n' :: t) = '\n' :: scanThink false false t := by
  intro p cs
  induction cs generalizing p with
  | nil =>
    intro t _
    show (if '\n' = '\n' then '\n' :: scanThink false false t
      else scanThink true false t) = '\n' :: scanThink false false t
    rw [if_pos rfl]
  | cons c cs ih =>
    intro t hcs
    have hc : ¬(c = '\n') := fun h => hcs (by simp [h])
    show (if c = '\n' then '\n' :: scanThink false false (cs ++ '\n' :: t)
      else scanThink true false (cs ++ '\n' :: t)) = '\n' :: scanThink false false t
    rw [if_neg hc]
    exact ih false t fun h => hcs (List.mem_cons_of_mem c h)

/-- On a single (newline-free) line, the sub scan is exactly the
cut-at-the-leftmost-marker function. -/
theorem scanThink_line : ∀ (prev : Bool) (s : List Char), '\n' ∉ s →
    scanThink false prev s = cutLine prev s := by
  intro prev s
  induction s generalizing prev with
  | nil => intro _; rfl
  | cons c cs ih =>
    intro hs
    have hcs : '\n' ∉ cs := fun h => hs (List.mem_cons_of_mem c h)
    show (if !prev && markerHere (c :: cs) then scanThink true false cs
        else c :: scanThink false (wordChar c) cs)
      = (if !prev && markerHere (c :: cs) then []
        else c :: cutLine (wordChar c) cs)
    split
    · exact scanThink_skip false cs hcs
    · rw [ih (wordChar c) hcs]

/-- The sub scan distributes over a newline: the first line is cut at
its leftmost marker, and the remaining text is processed independently. -/
theorem scanThink_append : ∀ (prev : Bool) (s t : List Char), '\n' ∉ s →
    scanThink false prev (s ++ '\n' :: t)
      = cutLine prev s ++ '\n' :: scanThink false false t := by
  intro prev s
  induction s generalizing prev with
  | nil =>
    intro t _
    show (if !prev && markerHere ('\n' :: t) then scanThink true false t
        else '\n' :: scanThink false (wordChar '\n') t)
      = [] ++ '\n' :: scanThink false false t
    rw [markerHere_nl t, Bool.and_false, List.nil_append]
    rfl
  | cons c cs ih =>
    intro t hs
    have hcs : '\n' ∉ cs := fun h => hs (List.mem_cons_of_mem c h)
    show (if !prev && markerHere ((c :: cs) ++ '\n' :: t) then
          scanThink true false (cs ++ '\n' :: t)
        else c :: scanThink false (wordChar c) (cs ++ '\n' :: t))
      = (if !prev && markerHere (c :: cs) then []
        else c :: cutLine (wordChar c) cs) ++ '\n' :: scanThink false false t
    rw [markerHere_line (c :: cs) t hs]
    cases hcond : (!prev && markerHere (c :: cs)) with
    | true =>
      rw [if_pos rfl, if_pos rfl, List.nil_append]
      exact scanThink_skip_append false cs t hcs
    | false =>
      rw [if_neg Bool.false_ne_true, if_neg Bool.false_ne_true,
        ih (wordChar c) t hcs, List.cons_append]

/-! ## Helper lemmas: the reply is never empty -/

theorem eq_cons_of_head? {l : List Char} {c : Char} (h : l.head? = some c) :
    ∃ r, l = c :: r := by
  cases l with
  | nil => cases h
  | cons a t =>
    refine ⟨t, ?_⟩
    rw [show a = c from Option.some.inj h]

/-- Stripping keeps a list whose last character is not whitespace
nonempty. -/
theorem pyStrip_ne_nil (l : List Char) (c : Char) (hc : l.getLast? = some c)
    (hs : isPySpace c = false) : pyStrip l ≠ [] := by
  have hmem : c ∈ l := by
    obtain ⟨r, hr⟩ := eq_cons_of_head? (show l.reverse.head? = some c by
      rw [List.head?_reverse]; exact hc)
    refine List.mem_reverse.mp ?_
    rw [hr]
    exact List.mem_cons_self c r
  have hd : l.dropWhile isPySpace ≠ [] := by
    intro h
    rw [List.dropWhile_eq_nil_iff.mp h c hmem] at hs
    cases hs
  have hl2 : (l.dropWhile isPySpace).getLast? = some c := by
    rw [← List.takeWhile_append_dropWhile isPySpace l] at hc
    rw [List.getLast?_append_of_ne_nil _ hd] at hc
    exact hc
  unfold pyStrip stripRight stripLeft
  obtain ⟨r, hr⟩ := eq_cons_of_head?
    (show (l.dropWhile isPySpace).reverse.head? = some c by
      rw [List.head?_reverse]; exact hl2)
  rw [hr, List.dropWhile_cons, hs, if_neg Bool.false_ne_true]
  simp

/-- Whatever the input, the pipeline output is nonempty: after line 129
the text ends in `.`, `!` or `?`, which the newline collapse keeps and
the final strip cannot remove. -/
theorem sanitizeChars_ne_nil (d : List Char) : sanitizeChars d ≠ [] := by
  have key : ∃ c,
      (if endsPunct (stage6 d) then stage6 d else stage6 d ++ ['.']).getLast?
          = some c ∧
        isPySpace c = false ∧ nlToSpace c = c := by
    cases hE : endsPunct (stage6 d) with
    | true =>
      have h1 : ∃ c, (stage6 d).getLast? = some c ∧
          (c = '.' ∨ c = '!' ∨ c = '?') := by
        unfold endsPunct at hE
        cases hL : (stage6 d).getLast? with
        | none => rw [hL] at hE; cases hE
        | some c =>
          rw [hL] at hE
          refine ⟨c, rfl, ?_⟩
          simpa [or_assoc] using hE
      obtain ⟨c, hL, hc⟩ := h1
      rw [if_pos rfl]
      exact ⟨c, hL, by rcases hc with rfl | rfl | rfl <;> decide,
        by rcases hc with rfl | rfl | rfl <;> decide⟩
    | false =>
      rw [if_neg Bool.false_ne_true]
      exact ⟨'.', List.getLast?_concat _, by decide, by decide⟩
  obtain ⟨c, hL, hs, hfix⟩ := key
  refine pyStrip_ne_nil _ c ?_ hs
  rw [List.getLast?_map, hL]
  simp [hfix]

/-! ## The claims -/

/-- C1, counterexample to the claim as stated: after four complete
turns the session history `demo8` is reachable (at the state
immediately after the Assistant turn is appended) and holds
`2 + 2*MAX_HISTORY = 8` entries, exceeding `1 + 2*MAX_HISTORY`: the
trim of lines 153-155 runs only on the User append, not after the
Assistant append of line 162. -/
theorem c1_counterexample : Reach true demo8 ∧ MAX_HISTORY * 2 + 1 < demo8.length :=
  ⟨reach_demo8, by decide⟩

/-- C1, amended: a session's turn count never exceeds
`1 + 2*MAX_HISTORY` at the moment the context is assembled (immediately
after the User append and trim); immediately after the Assistant turn
is appended it can instead reach `2 + 2*MAX_HISTORY`. -/
theorem c1_context_phase_bound (h : List String) (hr : Reach false h) :
    h.length ≤ MAX_HISTORY * 2 + 1 := by
  have hb := reach_len false h hr
  simpa using hb

theorem c1_context_phase_bound_witness : demo7.length ≤ MAX_HISTORY * 2 + 1 :=
  c1_context_phase_bound demo7 reach_demo7

/-- C2, counterexample to the claim as stated: on a turn whose audit-log
write fails, the handler sends nothing (the reply and the `"[END]"`
sentinel are never sent, since `log_chat` at line 163 runs before the
sends of lines 166-167), actively closes the websocket, and discards
the session state — the failure is fatal to the session. -/
theorem c2_counterexample :
    (runTurn (fun _ => "Four.") false [systemEntry] "What is 2+2?").sent = [] ∧
    (runTurn (fun _ => "Four.") false [systemEntry] "What is 2+2?").closed = true ∧
    (runTurn (fun _ => "Four.") false [systemEntry] "What is 2+2?").hist = none :=
  ⟨rfl, rfl, rfl⟩

/-- C2, amended: when the audit-log write of a turn fails, the raised
exception reaches the handler's generic `except` clause: the sanitized
reply and the `"[END]"` sentinel of that turn are NOT sent (the log
write precedes the sends), the websocket is closed and the session
state is removed.  Only on a turn whose log write succeeds are the
reply and the sentinel sent, in that order. -/
theorem c2_log_failure_fatal (gen : String → String) (h : List String) (u : String) :
    (runTurn gen false h u).sent = [] ∧
    (runTurn gen false h u).closed = true ∧
    (runTurn gen false h u).hist = none ∧
    (runTurn gen true h u).sent =
      [sanitize (gen (assembleContext (trimHist (h ++ [mkUser u])))), "[END]"] :=
  ⟨rfl, rfl, rfl, rfl⟩

/-- C3, counterexample to the claim as stated: the sanitized value is
not `"Hello there!."` — after the `"Wait..."` filler is deleted the
text already ends in `'!'`, so line 128 appends no period. -/
theorem c3_counterexample :
    sanitize "Assistant: Hello there! Wait, actually never mind." ≠ "Hello there!." := by
  decide

/-- C3, amended: `sanitize` applied to
`"Assistant: Hello there! Wait, actually never mind."` returns exactly
`"Hello there!"` (no trailing period is appended, because the remaining
text already ends in terminal punctuation). -/
theorem c3_exact_value :
    sanitize "Assistant: Hello there! Wait, actually never mind." = "Hello there!" := by
  decide

/-- C4, counterexample to the claim as stated: for the input
`"Wait\nhello"` the remaining text after steps 1-3 is unchanged and
starts with the word-bounded marker `Wait`, yet `sanitize` returns
`"hello."`: the text on the line after the marker survives, so not
everything after the marker is deleted (the claim would force the
degenerate output `"."`). -/
theorem c4_counterexample :
    stage3 "Wait\nhello".data = "Wait\nhello".data ∧
    markerHere (stage3 "Wait\nhello".data) = true ∧
    sanitize "Wait\nhello" = "hello." ∧
    sanitize "Wait\nhello" ≠ "." :=
  ⟨by decide, by decide, by decide, by decide⟩

/-- C4, amended: the thinking-out-loud removal acts line by line: in
each line of the remaining text, the leftmost case-insensitive
word-bounded discourse marker and everything after it UP TO THE END OF
THAT LINE is deleted, while text on subsequent lines is retained and
processed independently (`.*` does not cross a newline). -/
theorem c4_cut_to_end_of_line (lines : List (List Char))
    (hnl : ∀ l ∈ lines, '\n' ∉ l) :
    scanThink false false (joinNl lines) = joinNl (lines.map (cutLine false)) := by
  induction lines with
  | nil => rfl
  | cons l ls ih =>
    cases ls with
    | nil =>
      show scanThink false false l = joinNl [cutLine false l]
      rw [scanThink_line false l (hnl l (List.mem_cons_self l []))]
      rfl
    | cons l2 ls2 =>
      show scanThink false false (l ++ '\n' :: joinNl (l2 :: ls2))
        = cutLine false l ++ '\n' :: joinNl ((l2 :: ls2).map (cutLine false))
      rw [scanThink_append false l (joinNl (l2 :: ls2))
          (hnl l (List.mem_cons_self l (l2 :: ls2))),
        ih fun x hx => hnl x (List.mem_cons_of_mem l hx)]

theorem c4_cut_to_end_of_line_witness :
    scanThink false false (joinNl ["Wait".data, "hi there".data])
      = joinNl (["Wait".data, "hi there".data].map (cutLine false)) :=
  c4_cut_to_end_of_line ["Wait".data, "hi there".data] (by decide)

/-- C5: when the User append pushes a reachable history over
`1 + 2*MAX_HISTORY` entries, the trim rewrites it to exactly the
original System turn followed by the most recent `2*MAX_HISTORY`
entries of the appended history. -/
theorem c5_trim_rewrite (b : Bool) (h : List String) (u : String)
    (hr : Reach b h)
    (hlen : MAX_HISTORY * 2 + 1 < (h ++ [mkUser u]).length) :
    trimHist (h ++ [mkUser u])
        = systemEntry :: (h ++ [mkUser u]).drop
            ((h ++ [mkUser u]).length - MAX_HISTORY * 2) ∧
      ((h ++ [mkUser u]).drop
          ((h ++ [mkUser u]).length - MAX_HISTORY * 2)).length
        = MAX_HISTORY * 2 := by
  obtain ⟨t, rfl, -⟩ := reach_shape b h hr
  constructor
  · unfold trimHist
    rw [if_pos hlen]
    rfl
  · rw [List.length_drop]
    simp only [List.length_append, List.length_cons, List.length_nil,
      MAX_HISTORY] at hlen ⊢
    omega

theorem c5_trim_rewrite_witness :
    trimHist (demo6 ++ [mkUser "g"])
        = systemEntry :: (demo6 ++ [mkUser "g"]).drop
            ((demo6 ++ [mkUser "g"]).length - MAX_HISTORY * 2) ∧
      ((demo6 ++ [mkUser "g"]).drop
          ((demo6 ++ [mkUser "g"]).length - MAX_HISTORY * 2)).length
        = MAX_HISTORY * 2 :=
  c5_trim_rewrite true demo6 "g" reach_demo6 (by decide)

/-- C6: in every reachable state, the history is the single System turn
(carrying the fixed instruction preamble) followed by User/Assistant
entries only — the System turn is retained by every append and by every
trim. -/
theorem c6_system_first (b : Bool) (h : List String) (hr : Reach b h) :
    ∃ t, h = systemEntry :: t ∧
      ∀ e ∈ t, (∃ u, e = mkUser u) ∨ (∃ r, e = mkAssistant r) :=
  reach_shape b h hr

theorem c6_system_first_witness :
    ∃ t, [systemEntry] = systemEntry :: t ∧
      ∀ e ∈ t, (∃ u, e = mkUser u) ∨ (∃ r, e = mkAssistant r) :=
  c6_system_first true [systemEntry] Reach.init

/-- C7: the generation function inside a turn is applied exactly to the
assembled context of the User-appended-and-trimmed history, and for
every reachable history that context is precisely the turns rendered as
`"<Role>: <text>"` lines, newline-joined, followed by the trailing
`"\nAssistant:"` line (the spec-side `renderSpec`). -/
theorem c7_render_context :
    (∀ (gen : String → String) (logOk : Bool) (h : List String) (u : String),
      runTurn gen logOk h u =
        runTurn (fun _ => gen (assembleContext (trimHist (h ++ [mkUser u]))))
          logOk h u) ∧
    (∀ (b : Bool) (h : List String), Reach b h →
      ∃ ts : List (Role × String), h = ts.map specEntry ∧
        assembleContext h = renderSpec ts) := by
  constructor
  · intro gen logOk h u
    rfl
  · intro b h hr
    induction hr with
    | init => exact ⟨[(Role.system, systemPrompt)], rfl, rfl⟩
    | user u h hr ih =>
      obtain ⟨ts, rfl, -⟩ := ih
      have h1 : ts.map specEntry ++ [mkUser u]
          = (ts ++ [(Role.user, u)]).map specEntry := by
        rw [List.map_append]
        rfl
      have h2 : trimHist (ts.map specEntry ++ [mkUser u])
          = (if MAX_HISTORY * 2 + 1 < (ts ++ [(Role.user, u)]).length then
              (ts ++ [(Role.user, u)]).take 1 ++ (ts ++ [(Role.user, u)]).drop
                ((ts ++ [(Role.user, u)]).length - MAX_HISTORY * 2)
            else ts ++ [(Role.user, u)]).map specEntry := by
        rw [h1, trimHist_map]
      exact ⟨_, h2, by rw [h2]; rfl⟩
    | asst r h hr ih =>
      obtain ⟨ts, rfl, -⟩ := ih
      have h2 : ts.map specEntry ++ [mkAssistant r]
          = (ts ++ [(Role.assistant, r)]).map specEntry := by
        rw [List.map_append]
        rfl
      exact ⟨ts ++ [(Role.assistant, r)], h2, by rw [h2]; rfl⟩

theorem c7_render_context_witness :
    ∃ ts : List (Role × String), [systemEntry] = ts.map specEntry ∧
      assembleContext [systemEntry] = renderSpec ts :=
  c7_render_context.2 true [systemEntry] Reach.init

/-- C8: `sanitize` is total and never returns the empty string; when
steps 1-6 of the pipeline produce an empty text, line 129 degenerates
to a single period, and in particular `sanitize "" = "."`. -/
theorem c8_sanitize_total_nonempty :
    (∀ s : String, sanitize s ≠ "") ∧
    (∀ d : List Char, stage6 d = [] → sanitizeChars d = ['.']) ∧
    sanitize "" = "." := by
  refine ⟨?_, ?_, by decide⟩
  · intro s hcontra
    have key : ∀ l : List Char, String.mk l = "" → l = [] := fun l hl =>
      congrArg String.data hl
    exact sanitizeChars_ne_nil s.data (key _ hcontra)
  · intro d h
    show pyStrip ((if endsPunct (stage6 d) then stage6 d
      else stage6 d ++ ['.']).map nlToSpace) = ['.']
    rw [h]
    decide

theorem c8_sanitize_total_nonempty_witness : sanitizeChars "".data = ['.'] :=
  c8_sanitize_total_nonempty.2.1 "".data (by decide)

/-- C9: across all interleavings of N concurrent sessions each issuing
one message, at most one generation call executes at any instant (two
sessions can never both be in their generating phase), and when every
session has finished its turn, exactly N generation calls have
occurred. -/
theorem c9_generation_serialized (n : Nat) (s : GenSys n) (hr : GenReach n s) :
    (∀ i j : Fin n, s.pc i = GenPC.generating → s.pc j = GenPC.generating →
      i = j) ∧
    ((∀ i, s.pc i = GenPC.finished) → (List.ofFn s.calls).sum = n) := by
  obtain ⟨h1, h2⟩ := genReach_inv hr
  constructor
  · intro i j hi hj
    exact Option.some.inj ((h1 i hi).symm.trans (h1 j hj))
  · intro hfin
    have hc : s.calls = fun _ => 1 := funext fun i => by
      rw [h2 i, hfin i]
      rfl
    rw [hc, List.ofFn_const, List.sum_replicate, smul_eq_mul, mul_one]

theorem c9_generation_serialized_witness :
    (∀ i j : Fin 1, (genInit 1).pc i = GenPC.generating →
      (genInit 1).pc j = GenPC.generating → i = j) ∧
    ((∀ i, (genInit 1).pc i = GenPC.finished) →
      (List.ofFn (genInit 1).calls).sum = 1) :=
  c9_generation_serialized 1 (genInit 1) Relation.ReflTransGen.refl

/-- C10: in every reachable state a session's turn count never exceeds
`2 + 2*MAX_HISTORY`, and that bound is attained: the trim runs only on
the User append, so `demo8` — reached immediately after the fourth
Assistant append — holds exactly `2 + 2*MAX_HISTORY = 8` entries until
the next user message triggers the trim. -/
theorem c10_turn_bound :
    (∀ (b : Bool) (h : List String), Reach b h →
      h.length ≤ MAX_HISTORY * 2 + 2) ∧
    (Reach true demo8 ∧ demo8.length = MAX_HISTORY * 2 + 2) := by
  refine ⟨?_, reach_demo8, by decide⟩
  intro b h hr
  have hb := reach_len b h hr
  cases b <;> simp at hb <;> omega

theorem c10_turn_bound_witness : demo8.length ≤ MAX_HISTORY * 2 + 2 :=
  c10_turn_bound.1 true demo8 reach_demo8

end Chatbot
